import Mathlib

/-
Verification of the superqueue library (src/index.ts): an asynchronous FIFO
queue with a termination sentinel, a single-consumer guard, ordered
combinators (map, pipe, split, batch, flat, collect) and a bounded-concurrency
engine (mapParallel, upipe, usplit).

The embedding is a shallow one over the single-threaded cooperative model the
library assumes: the queue is a record of its observable fields, each public
operation is a pure state transformer translated statement by statement from
the TypeScript source, and the bounded-concurrency engine is modelled as a
deterministic run over tasks tagged with their settle times (the race picks
the task with the least settle time, matching Promise.race over wrapper
promises of already-launched tasks).

The JavaScript sentinel `undefined` (Queue.#eof) is modelled by `none` in
`Option T`: a buffer slot is `some v` for a real value and `none` for the
sentinel, exactly mirroring `(T | EOF)[]` with `EOF = undefined`.
-/

namespace SuperQueue

variable {T U V : Type} {α : Type}

/-- Errors thrown by the queue, one constructor per distinct `throw new
Error(...)` site reachable from the modelled operations. -/
inductive QError where
  | hasEnded
  | undefinedValue
  | alreadyPiped
deriving DecidableEq, Repr

/-- Observable state of one `Queue<T>` instance.

* `queue` is `#queue : (T | EOF)[]`, with `none` standing for the sentinel.
* `pushCount`, `ended`, `piped` are the fields of the same names.
* `endResolved` records that `#resolveEnd` has been called.
* `resolvers` is `#shiftResolvers`: each registered `waitForShift` listener is
  an id paired with a flag telling whether its promise has already been
  resolved (resolving a promise a second time is unobservable, so the array is
  kept, as in the source, and only the flag changes).
* `wakeups` counts calls to `#run` (each resolves the pending pull promise).
* `fireLog`, `removedCount`, `sentinelRemoved` are history variables recording
  which pending listeners each buffer pop resolved, how many non-sentinel
  items have been removed, and whether the sentinel has been popped; they add
  observability and influence no control flow. -/
structure QueueState (T : Type) where
  queue : List (Option T)
  pushCount : Nat
  ended : Bool
  piped : Bool
  endResolved : Bool
  nextId : Nat
  resolvers : List (Nat × Bool)
  wakeups : Nat
  fireLog : List (List Nat)
  removedCount : Nat
  sentinelRemoved : Bool
deriving DecidableEq, Repr

/-- The state of a freshly constructed queue. -/
def fresh (T : Type) : QueueState T :=
  { queue := [], pushCount := 0, ended := false, piped := false,
    endResolved := false, nextId := 0, resolvers := [], wakeups := 0,
    fireLog := [], removedCount := 0, sentinelRemoved := false }

/-- `#run()`: resolve the pending pull promise and install a new one. -/
def runWake (s : QueueState T) : QueueState T :=
  { s with wakeups := s.wakeups + 1 }

/-- Ids of the `waitForShift` listeners whose promises are still pending. -/
def pendingIds (s : QueueState T) : List Nat :=
  s.resolvers.filterMap (fun l => if l.2 then none else some l.1)

/-- `this.#shiftResolvers.map(r => r())` in `#shift`s finally block: resolve
every registered listener; resolving an already-resolved promise changes
nothing, so only pending listeners produce an observable event, recorded in
`fireLog`. -/
def fireResolvers (s : QueueState T) : QueueState T :=
  { s with
    resolvers := s.resolvers.map (fun l => (l.1, true)),
    fireLog := s.fireLog ++ [pendingIds s] }

/-- `waitForShift()`: register a fresh pending listener. -/
def waitForShiftRun (s : QueueState T) : QueueState T :=
  { s with resolvers := s.resolvers ++ [(s.nextId, false)], nextId := s.nextId + 1 }

/-- `push(...vals)`. Checks (`ended`, an `undefined` argument) run before any
mutation, so a throwing call returns the state unchanged. On success the
values are appended, `#pushCount` grows, and `#run` wakes the pending pull. -/
def pushRun (s : QueueState T) (vals : List (Option T)) :
    QueueState T × Option QError :=
  if s.ended then (s, some QError.hasEnded)
  else if vals.any (fun v => v.isNone) then (s, some QError.undefinedValue)
  else
    (runWake { s with pushCount := s.pushCount + vals.length,
                      queue := s.queue ++ vals }, none)

/-- `end()`: fails if already ended, otherwise appends the sentinel, wakes the
pending pull, sets `ended` and resolves the end promise. -/
def endRun (s : QueueState T) : QueueState T × Option QError :=
  if s.ended then (s, some QError.hasEnded)
  else
    (runWake { s with queue := s.queue ++ [none], ended := true,
                      endResolved := true }, none)

/-- State change of popping the buffer front `v` (leaving `rest`): remove it,
resolve every shift listener, and update the history variables. -/
def popState (s : QueueState T) (v : Option T) (rest : List (Option T)) :
    QueueState T :=
  fireResolvers
    { s with
      queue := rest,
      removedCount := s.removedCount + (if v.isSome then 1 else 0),
      sentinelRemoved := s.sentinelRemoved || v.isNone }

/-- Result of one `#shift()` attempt: either a settled value (a real item or
the sentinel `none`), or a suspension awaiting a future push/end. -/
inductive ShiftOut (T : Type) where
  | value (v : Option T)
  | suspended
deriving DecidableEq, Repr

/-- One step of `#shift()` (also the public `shiftUnsafe`): on an empty buffer
return the sentinel if ended, else suspend; on a non-empty buffer pop the
front (sentinel included) and resolve every shift listener. -/
def shiftStep (s : QueueState T) : QueueState T × ShiftOut T :=
  match s.queue with
  | [] => if s.ended then (s, ShiftOut.value none) else (s, ShiftOut.suspended)
  | v :: rest => (popState s v rest, ShiftOut.value v)

/-- `shiftUnsafe = () => this.#shift()`. -/
def shiftUnsafe (s : QueueState T) : QueueState T × ShiftOut T :=
  shiftStep s

/-- `#preparePipe()`: the single-consumer guard. -/
def preparePipe (s : QueueState T) : QueueState T × Option QError :=
  if s.piped then (s, some QError.alreadyPiped)
  else ({ s with piped := true }, none)

/-- The drain loop shared by `map`, `collect` and the async iterator:
repeatedly `#shift` until the sentinel arrives, recursing along the buffer
(the first argument is the current `s.queue`, kept in step by each pop).
Returns the final state, the values handed to the visitor in order, and
whether the loop completed (`true`) or suspended on an empty, un-ended
buffer (`false`). -/
def drainGo : List (Option T) → QueueState T → List T →
    QueueState T × List T × Bool
  | [], s, acc => if s.ended then (s, acc, true) else (s, acc, false)
  | none :: rest, s, acc => (popState s none rest, acc, true)
  | some x :: rest, s, acc => drainGo rest (popState s (some x) rest) (acc ++ [x])

/-- The drain loop started on a queue state. -/
def drainLoop (s : QueueState T) (acc : List T) :
    QueueState T × List T × Bool :=
  drainGo s.queue s acc

/-- `map(callback)`: guard, then drain, feeding each non-sentinel value to the
visitor in arrival order. -/
def mapQ (s : QueueState T) : QueueState T × Except QError (List T × Bool) :=
  match preparePipe s with
  | (s1, some e) => (s1, Except.error e)
  | (s1, none) =>
    let r := drainLoop s1 []
    (r.1, Except.ok (r.2.1, r.2.2))

/-- `collect()`: `map` with a visitor accumulating into an array; the
resulting array is exactly the visit sequence. -/
def collectQ (s : QueueState T) : QueueState T × Except QError (List T × Bool) :=
  mapQ s

/-- `[Symbol.asyncIterator]`: guard, then the same shift-until-sentinel loop,
yielding each non-sentinel value. -/
def iterQ (s : QueueState T) : QueueState T × Except QError (List T × Bool) :=
  match preparePipe s with
  | (s1, some e) => (s1, Except.error e)
  | (s1, none) =>
    let r := drainLoop s1 []
    (r.1, Except.ok (r.2.1, r.2.2))

/-- `fromArray`: push each element, then end. -/
def pushBatches (s : QueueState T) : List (List T) → QueueState T
  | [] => s
  | b :: bs => pushBatches (pushRun s (b.map some)).1 bs

/-- `Queue.fromArray(array)`: a fresh queue, one `push` per element, `end`. -/
def fromArray (xs : List T) : QueueState T :=
  (endRun (pushBatches (fresh T) (xs.map (fun x => [x])))).1

/-- Behaviour of one visitor invocation inside `mapParallel`: the time at
which its promise settles, and whether it fulfils (`ok = true`) or rejects. -/
structure TaskSpec where
  time : Nat
  ok : Bool
deriving DecidableEq, Repr

instance : Inhabited TaskSpec := ⟨⟨0, true⟩⟩

/-- Least settle time among a non-empty window of in-flight tasks. -/
def minTime : List TaskSpec → Nat
  | [] => 0
  | t :: ts => if ts.isEmpty then t.time else min t.time (minTime ts)

/-- Index of the task `Promise.race` settles with: the first task of least
settle time (ties go to the earlier array position). -/
def raceIdx : List TaskSpec → Nat
  | [] => 0
  | t :: ts =>
    if ts.isEmpty then 0
    else if t.time ≤ minTime ts then 0 else raceIdx ts + 1

/-- Outcome of the promise returned by `mapParallel`: it resolves, rejects
(a race over the window settled with a rejection), or never settles (the
degenerate `n = 0` case, where `Promise.race([])` is forever pending). -/
inductive MPResult where
  | resolved
  | rejected
  | stuck
deriving DecidableEq, Repr

/-- The `mapParallel` loop over the remaining source items `xs` and the
window `proms` of in-flight tasks. Per source iteration: if the window holds
`n` tasks, race them — if the first to settle rejected, the awaited race
throws and `mapParallel` rejects, otherwise that task leaves the window; then
shift the source — on the sentinel, break and `Promise.allSettled` the window
(which absorbs any remaining failure and resolves); otherwise launch the next
task into the window. -/
def mapParallelRun (n : Nat) : List TaskSpec → List TaskSpec → MPResult
  | [], proms =>
    if proms.length = n then
      match proms with
      | [] => MPResult.stuck
      | _ :: _ =>
        if (proms.getD (raceIdx proms) default).ok then MPResult.resolved
        else MPResult.rejected
    else MPResult.resolved
  | x :: rest, proms =>
    if proms.length = n then
      match proms with
      | [] => MPResult.stuck
      | _ :: _ =>
        if (proms.getD (raceIdx proms) default).ok then
          mapParallelRun n rest (proms.eraseIdx (raceIdx proms) ++ [x])
        else MPResult.rejected
    else mapParallelRun n rest (proms ++ [x])

/-- `mapParallel(callback, n)` at the queue level: the consumption guard, then
the windowed run over the drained items (racing the window never touches the
queue, so the drained item sequence is that of `drainLoop`); `spec` gives each
item its visitor behaviour. `none` in the payload means the source never ended
and the loop is still suspended. -/
def mapParallelQ (s : QueueState T) (spec : T → TaskSpec) (n : Nat) :
    QueueState T × Except QError (Option MPResult) :=
  match preparePipe s with
  | (s1, some e) => (s1, Except.error e)
  | (s1, none) =>
    let r := drainLoop s1 []
    (r.1, Except.ok (if r.2.2 then some (mapParallelRun n (r.2.1.map spec) []) else none))

/-- The visitor `pipe` wraps around its transform: push the result unless it
is `undefined` (the skip marker). Applied over the ordered drain. -/
def pipeContents (f : T → Option U) : List T → List U
  | [] => []
  | x :: rest =>
    match f x with
    | some r => r :: pipeContents f rest
    | none => pipeContents f rest

/-- The visitor `split` wraps around its classifier: route the value to lane
0 or lane 1. Applied over the ordered drain. -/
def splitContents (g : T → U ⊕ V) : List T → List U × List V
  | [] => ([], [])
  | x :: rest =>
    let p := splitContents g rest
    match g x with
    | Sum.inl u => (u :: p.1, p.2)
    | Sum.inr v => (p.1, v :: p.2)

/-- The `batch(n)` visitor: accumulate into `buffer`, emit the group once it
reaches length `n`; after the source drain, flush a non-empty partial group. -/
def batchOut (n : Nat) : List T → List T → List (List T)
  | buffer, [] => if buffer.length > 0 then [buffer] else []
  | buffer, x :: rest =>
    let b2 := buffer ++ [x]
    if b2.length = n then b2 :: batchOut n [] rest
    else batchOut n b2 rest

/-- The `flat()` visitor: push every element of each (array) item. -/
def flatOut : List (List T) → List T
  | [] => []
  | v :: rest => v ++ flatOut rest

/-- The requested concurrency of `upipe`/`usplit`: a finite `n`, or the
JavaScript `Infinity`. -/
inductive Conc where
  | fin (n : Nat)
  | infin
deriving DecidableEq, Repr

/-- Behaviour of one async-callback invocation in `upipe`/`usplit`: what its
promise resolves with (`none` is the skip marker) and how its settlement is
scheduled — the windowed engine reads `time` as the absolute settle time of
the already-launched task, the `Infinity` branch as the delay between the
callback being invoked and its promise settling. -/
structure CbRes (U : Type) where
  time : Nat
  out : Option U
deriving DecidableEq, Repr

/-- Insert a settled result into a settle-time-sorted list. -/
def insertByTime (p : Nat × α) : List (Nat × α) → List (Nat × α)
  | [] => [p]
  | q :: qs => if p.1 < q.1 then p :: q :: qs else q :: insertByTime p qs

/-- Sort settled results by settle time: pushes into a derived queue happen in
the order the callback promises resolve. -/
def settleSort : List (Nat × α) → List (Nat × α)
  | [] => []
  | p :: rest => insertByTime p (settleSort rest)

/-- The `n === Infinity` branch of `upipe`/`usplit` drains the source with
`map`, whose loop invokes the async wrapper `c` WITHOUT awaiting it (the
visitor has a `void` signature, so `c(v)` is fire-and-forget): the item at
source position `i` is handed to `c` at tick `i`, and the callback's promise
— and with it the push of a non-skip result into the derived queue —
settles `(cb x).time` ticks later. `launchTicks cb i xs` lists those
scheduled pushes as (settle tick, resolved value), in launch order. -/
def launchTicks (cb : T → CbRes U) : Nat → List T → List (Nat × Option U)
  | _, [] => []
  | i, x :: rest => (i + (cb x).time, (cb x).out) :: launchTicks cb (i + 1) rest

/-- Scheduled pushes of the fire-and-forget `Infinity` branch that actually
reach the derived queue: `void this.map(c).then(outQueue.end)` ends the
derived queue when the SOURCE drain completes, at `endTick`, waiting for no
callback — a push settling at or after that hits the ended queue, throws
inside its floating promise, and its value is silently lost. The surviving
pushes land in settle order, not source order. -/
def firedPushes (pushes : List (Nat × Option U)) (endTick : Nat) : List U :=
  ((settleSort pushes).filter (fun p => p.1 < endTick)).filterMap (fun p => p.2)

/-- `upipe(callback, n)`: dispatch on `n === Infinity` between the
fire-and-forget `map` drain (pushes land in settle order and a callback
settling after the source drain — which ends the derived queue at tick
`xs.length` — loses its value) and the windowed `mapParallel` engine (whose
final settle-all join awaits every in-flight callback before the derived
queue ends, so nothing is lost there and results land in settle order; if
the engine rejects or is stuck the derived queue is never ended, reported as
`none`). -/
def upipeContents (cb : T → CbRes U) (conc : Conc) (xs : List T) :
    Option (List U) :=
  match conc with
  | Conc.infin => some (firedPushes (launchTicks cb 0 xs) xs.length)
  | Conc.fin n =>
    match mapParallelRun n (xs.map (fun x => { time := (cb x).time, ok := true })) [] with
    | MPResult.resolved =>
      some ((settleSort (xs.map (fun x => ((cb x).time, (cb x).out)))).filterMap
        (fun p => p.2))
    | _ => none

/-- `usplit(callback, n)`: the same `n === Infinity` dispatch as `upipe` —
fire-and-forget drain with settle-ordered, end-cut pushes — with the landed
results routed to the two derived lanes. -/
def usplitContents (cg : T → CbRes (U ⊕ V)) (conc : Conc) (xs : List T) :
    Option (List U × List V) :=
  match conc with
  | Conc.infin =>
    let landed := firedPushes (launchTicks cg 0 xs) xs.length
    some (landed.filterMap (fun r => match r with | Sum.inl u => some u | Sum.inr _ => none),
          landed.filterMap (fun r => match r with | Sum.inl _ => none | Sum.inr v => some v))
  | Conc.fin n =>
    match mapParallelRun n (xs.map (fun x => { time := (cg x).time, ok := true })) [] with
    | MPResult.resolved =>
      let settled := (settleSort (xs.map (fun x => ((cg x).time, (cg x).out)))).filterMap
        (fun p => p.2)
      some (settled.filterMap (fun r => match r with | Sum.inl u => some u | Sum.inr _ => none),
            settled.filterMap (fun r => match r with | Sum.inl _ => none | Sum.inr v => some v))
    | _ => none

/-- The public operations that mutate a queue, for reachability. -/
inductive Op (T : Type) where
  | pushOp (vals : List (Option T))
  | endOp
  | shiftOp
  | prepOp
  | waitOp

/-- Apply one operation; a throwing operation leaves the state unchanged. -/
def applyOp (s : QueueState T) : Op T → QueueState T
  | Op.pushOp vals => (pushRun s vals).1
  | Op.endOp => (endRun s).1
  | Op.shiftOp => (shiftStep s).1
  | Op.prepOp => (preparePipe s).1
  | Op.waitOp => waitForShiftRun s

/-- Apply a sequence of operations in order. -/
def applyOps (s : QueueState T) (ops : List (Op T)) : QueueState T :=
  ops.foldl applyOp s

/-- A state is reachable if some operation sequence produces it from a fresh
queue. -/
def Reachable (s : QueueState T) : Prop :=
  ∃ ops : List (Op T), s = applyOps (fresh T) ops

/-- Number of real values in a buffer. -/
def countSome : List (Option T) → Nat
  | [] => 0
  | some _ :: rest => countSome rest + 1
  | none :: rest => countSome rest

/-- Number of sentinels in a buffer. -/
def countNone : List (Option T) → Nat
  | [] => 0
  | some _ :: rest => countNone rest
  | none :: rest => countNone rest + 1

/-- The sentinel may only sit at the last buffer position. -/
def noneOnlyLast : List (Option T) → Bool
  | [] => true
  | none :: rest => rest.isEmpty
  | some _ :: rest => noneOnlyLast rest

/-- The inductive state invariant: push/removal accounting, exactly one
buffered sentinel once ended (until it is popped), the sentinel can only have
been popped after `end`, and nothing follows the sentinel. -/
def Inv (s : QueueState T) : Prop :=
  s.pushCount = countSome s.queue + s.removedCount ∧
  countNone s.queue = (if s.ended = true ∧ s.sentinelRemoved = false then 1 else 0) ∧
  (s.sentinelRemoved = true → s.ended = true) ∧
  noneOnlyLast s.queue = true


/-- The prefix of real values before the first sentinel of a buffer: exactly
what a drain hands to its visitor. -/
def takeSomes : List (Option T) → List T
  | [] => []
  | none :: _ => []
  | some v :: rest => v :: takeSomes rest

/-- `size()`. -/
def size (s : QueueState T) : Nat := s.queue.length


theorem popState_queue (s : QueueState T) (v : Option T) (rest : List (Option T)) :
    (popState s v rest).queue = rest := rfl

theorem popState_ended (s : QueueState T) (v : Option T) (rest : List (Option T)) :
    (popState s v rest).ended = s.ended := rfl

theorem popState_piped (s : QueueState T) (v : Option T) (rest : List (Option T)) :
    (popState s v rest).piped = s.piped := rfl

theorem drainLoop_nil (s : QueueState T) (acc : List T) (h : s.queue = []) :
    drainLoop s acc = (s, acc, s.ended) := by
  rw [drainLoop, h]
  cases hb : s.ended <;> simp [drainGo, hb]

theorem drainLoop_cons_none (s : QueueState T) (acc : List T)
    (rest : List (Option T)) (h : s.queue = none :: rest) :
    drainLoop s acc = (popState s none rest, acc, true) := by
  rw [drainLoop, h]
  rfl

theorem drainLoop_cons_some (s : QueueState T) (acc : List T) (x : T)
    (rest : List (Option T)) (h : s.queue = some x :: rest) :
    drainLoop s acc = drainLoop (popState s (some x) rest) (acc ++ [x]) := by
  rw [drainLoop, h]
  rfl

theorem drainLoop_spec (q : List (Option T)) : ∀ (s : QueueState T) (acc : List T),
    s.queue = q →
    (drainLoop s acc).2.1 = acc ++ takeSomes q ∧
    (drainLoop s acc).2.2 = (q.any (fun v => v.isNone) || s.ended) ∧
    (drainLoop s acc).1.piped = s.piped ∧
    (drainLoop s acc).1.ended = s.ended := by
  induction q with
  | nil =>
    intro s acc h
    rw [drainLoop_nil s acc h]
    simp [takeSomes]
  | cons v rest ih =>
    intro s acc h
    match v with
    | none =>
      rw [drainLoop_cons_none s acc rest h]
      simp [takeSomes, popState_piped, popState_ended]
    | some x =>
      rw [drainLoop_cons_some s acc x rest h]
      have hq : (popState s (some x) rest).queue = rest := popState_queue ..
      obtain ⟨h1, h2, h3, h4⟩ := ih (popState s (some x) rest) (acc ++ [x]) hq
      refine ⟨?_, ?_, ?_, ?_⟩
      · rw [h1]; simp [takeSomes]
      · rw [h2, popState_ended]; simp
      · rw [h3, popState_piped]
      · rw [h4, popState_ended]

theorem map_some_no_none (b : List T) :
    (b.map some).any (fun v => v.isNone) = false := by
  induction b <;> simp_all

theorem pushRun_ok (s : QueueState T) (b : List T) (he : s.ended = false) :
    pushRun s (b.map some)
      = (runWake { s with pushCount := s.pushCount + b.length,
                          queue := s.queue ++ b.map some }, none) := by
  simp [pushRun, he, map_some_no_none]

theorem pushRun_ok_fst (s : QueueState T) (b : List T) (he : s.ended = false) :
    (pushRun s (b.map some)).1
      = runWake { s with pushCount := s.pushCount + b.length,
                         queue := s.queue ++ b.map some } := by
  rw [pushRun_ok s b he]

theorem pushBatches_spec (bs : List (List T)) : ∀ s : QueueState T,
    s.ended = false →
    (pushBatches s bs).queue = s.queue ++ bs.flatten.map some ∧
    (pushBatches s bs).ended = false ∧
    (pushBatches s bs).piped = s.piped ∧
    (pushBatches s bs).pushCount = s.pushCount + bs.flatten.length := by
  induction bs with
  | nil => intro s he; simp [pushBatches, he]
  | cons b bs ih =>
    intro s he
    rw [pushBatches, pushRun_ok_fst s b he]
    obtain ⟨h1, h2, h3, h4⟩ :=
      ih (runWake { s with pushCount := s.pushCount + b.length,
                           queue := s.queue ++ b.map some }) (by exact he)
    refine ⟨?_, h2, ?_, ?_⟩
    · rw [h1]; simp [runWake, List.append_assoc]
    · rw [h3]; simp [runWake]
    · rw [h4]; simp [runWake]; omega

theorem takeSomes_map_some_append (xs : List T) (tail : List (Option T)) :
    takeSomes (xs.map some ++ tail) = xs ++ takeSomes tail := by
  induction xs <;> simp_all [takeSomes]

theorem takeSomes_sentinel (xs : List T) :
    takeSomes (xs.map some ++ [none]) = xs := by
  rw [takeSomes_map_some_append]; simp [takeSomes]

theorem endRun_ok (s : QueueState T) (he : s.ended = false) :
    endRun s = (runWake { s with queue := s.queue ++ [none], ended := true,
                                 endResolved := true }, none) := by
  simp [endRun, he]

theorem ended_drain_ok (s : QueueState T) (xs : List T)
    (hq : s.queue = xs.map some ++ [none])
    (hp : s.piped = false) :
    (mapQ s).2 = Except.ok (xs, true) := by
  have hpp : preparePipe s = ({ s with piped := true }, none) := by
    simp [preparePipe, hp]
  have hq1 : ({ s with piped := true } : QueueState T).queue = xs.map some ++ [none] := hq
  obtain ⟨h1, h2, _, _⟩ := drainLoop_spec (xs.map some ++ [none]) { s with piped := true } [] hq1
  simp only [mapQ, hpp]
  rw [takeSomes_sentinel] at h1
  simp only [h1, h2]
  simp


theorem drain_after_end (T2 : Type) (batches : List (List T2)) :
    (mapQ (endRun (pushBatches (fresh T2) batches)).1).2
      = Except.ok (batches.flatten, true) := by
  obtain ⟨h1, h2, h3, _⟩ := pushBatches_spec batches (fresh T2) rfl
  rw [endRun_ok (pushBatches (fresh T2) batches) h2]
  apply ended_drain_ok
  · simp only [runWake]
    rw [h1]
    simp [fresh]
  · simp only [runWake]
    rw [h3]
    rfl

theorem flatten_singletons (S : List T) :
    (S.map (fun x => [x])).flatten = S := by
  induction S <;> simp_all

theorem flat_batch_general (n : Nat) (hn : 0 < n) :
    ∀ (xs buffer : List T), buffer.length < n →
    flatOut (batchOut n buffer xs) = buffer ++ xs := by
  intro xs
  induction xs with
  | nil =>
    intro buffer hb
    cases buffer with
    | nil => simp [batchOut, flatOut]
    | cons y ys => simp [batchOut, flatOut]
  | cons x rest ih =>
    intro buffer hb
    rw [batchOut]
    by_cases hfull : (buffer ++ [x]).length = n
    · simp only [hfull, if_pos]
      rw [flatOut, ih [] (by simpa using hn)]
      simp
    · simp only [hfull, if_neg, not_false_iff]
      rw [ih (buffer ++ [x]) (by simp at hb hfull ⊢; omega)]
      simp

/-- C1 (FIFO order): for every sequence of values pushed, in any batching,
onto a fresh queue before `end()`, `collect()` resolves to exactly the pushed
values in push order, and `map` visits each pushed item once in that same
order (`mapQ`s payload is the visit sequence); in particular pushing "1",
then "2", then ending makes `collect()` yield ["1", "2"]. -/
theorem c1_fifo_order (T2 : Type) (batches : List (List T2)) :
    (collectQ (endRun (pushBatches (fresh T2) batches)).1).2
      = Except.ok (batches.flatten, true) ∧
    (mapQ (endRun (pushBatches (fresh String) [["1"], ["2"]])).1).2
      = Except.ok (["1", "2"], true) := by
  refine ⟨drain_after_end T2 batches, ?_⟩
  have h := drain_after_end String [["1"], ["2"]]
  simpa using h

/-- C7 (batch/flat round trip): draining `fromArray(S)` yields exactly S, and
for every n > 0 the batch visitor followed by the flat visitor reproduces S
unchanged and in order, the non-multiple trailing group included. -/
theorem c7_batch_flat_roundtrip (T2 : Type) (S : List T2) (n : Nat) (hn : 0 < n) :
    (collectQ (fromArray S)).2 = Except.ok (S, true) ∧
    flatOut (batchOut n [] S) = S := by
  constructor
  · have h := drain_after_end T2 (S.map (fun x => [x]))
    rw [flatten_singletons] at h
    exact h
  · have h := flat_batch_general n hn S [] (by simpa using hn)
    simpa using h

theorem c7_witness : 0 < 2 ∧
    ((collectQ (fromArray [1, 2, 3, 4, 5])).2 = Except.ok ([1, 2, 3, 4, 5], true) ∧
     flatOut (batchOut 2 [] [1, 2, 3, 4, 5]) = [1, 2, 3, 4, 5]) :=
  ⟨by decide, c7_batch_flat_roundtrip Nat [1, 2, 3, 4, 5] 2 (by decide)⟩


theorem countSome_append (l1 l2 : List (Option T)) :
    countSome (l1 ++ l2) = countSome l1 + countSome l2 := by
  induction l1 with
  | nil => simp [countSome]
  | cons v vs ih => cases v <;> simp [countSome, ih] <;> omega

theorem countNone_append (l1 l2 : List (Option T)) :
    countNone (l1 ++ l2) = countNone l1 + countNone l2 := by
  induction l1 with
  | nil => simp [countNone]
  | cons v vs ih => cases v <;> simp [countNone, ih] <;> omega

theorem countSome_all_some (vals : List (Option T))
    (hv : vals.any (fun v => v.isNone) = false) :
    countSome vals = vals.length := by
  induction vals with
  | nil => rfl
  | cons v vs ih =>
    simp only [List.any_cons, Bool.or_eq_false_iff] at hv
    cases v with
    | none => simp at hv
    | some x => simp [countSome, ih hv.2]

theorem countNone_all_some (vals : List (Option T))
    (hv : vals.any (fun v => v.isNone) = false) :
    countNone vals = 0 := by
  induction vals with
  | nil => rfl
  | cons v vs ih =>
    simp only [List.any_cons, Bool.or_eq_false_iff] at hv
    cases v with
    | none => simp at hv
    | some x => simp [countNone, ih hv.2]

theorem countSome_add_countNone (l : List (Option T)) :
    countSome l + countNone l = l.length := by
  induction l with
  | nil => rfl
  | cons v vs ih => cases v <;> simp [countSome, countNone] <;> omega

theorem noneOnlyLast_of_no_none (l : List (Option T)) (h : countNone l = 0) :
    noneOnlyLast l = true := by
  induction l with
  | nil => rfl
  | cons v vs ih =>
    cases v with
    | none => simp [countNone] at h
    | some x =>
      simp only [countNone] at h
      simpa [noneOnlyLast] using ih h

theorem noneOnlyLast_append (l1 l2 : List (Option T)) (h1 : countNone l1 = 0)
    (h2 : noneOnlyLast l2 = true) :
    noneOnlyLast (l1 ++ l2) = true := by
  induction l1 with
  | nil => simpa using h2
  | cons v vs ih =>
    cases v with
    | none => simp [countNone] at h1
    | some x =>
      simp only [countNone] at h1
      simpa [noneOnlyLast] using ih h1

theorem inv_fresh : Inv (fresh T) := by
  refine ⟨rfl, rfl, ?_, rfl⟩
  intro h
  simp [fresh] at h

theorem inv_push (s : QueueState T) (vals : List (Option T)) (hi : Inv s) :
    Inv (pushRun s vals).1 := by
  obtain ⟨h1, h2, h3, h4⟩ := hi
  cases he : s.ended with
  | true => simpa [pushRun, he] using ⟨h1, h2, h3, h4⟩
  | false =>
    cases hv : vals.any (fun v => v.isNone) with
    | true => simpa [pushRun, he, hv] using ⟨h1, h2, h3, h4⟩
    | false =>
      have hq0 : countNone s.queue = 0 := by
        rw [h2]; simp [he]
      refine ⟨?_, ?_, ?_, ?_⟩
      · simp only [pushRun, he, hv, Bool.false_eq_true, if_false, runWake]
        rw [countSome_append, countSome_all_some vals hv]
        omega
      · simp only [pushRun, he, hv, Bool.false_eq_true, if_false, runWake]
        rw [countNone_append, countNone_all_some vals hv, hq0]
        simp [he]
      · simp only [pushRun, he, hv, Bool.false_eq_true, if_false, runWake]
        intro hx
        exact absurd (h3 hx) (by simp [he])
      · simp only [pushRun, he, hv, Bool.false_eq_true, if_false, runWake]
        exact noneOnlyLast_append s.queue vals hq0
          (noneOnlyLast_of_no_none vals (countNone_all_some vals hv))

theorem inv_end (s : QueueState T) (hi : Inv s) : Inv (endRun s).1 := by
  obtain ⟨h1, h2, h3, h4⟩ := hi
  cases he : s.ended with
  | true => simpa [endRun, he] using ⟨h1, h2, h3, h4⟩
  | false =>
    have hsr : s.sentinelRemoved = false := by
      cases hx : s.sentinelRemoved with
      | false => rfl
      | true => exact absurd (h3 hx) (by simp [he])
    have hq0 : countNone s.queue = 0 := by
      rw [h2]; simp [he]
    refine ⟨?_, ?_, ?_, ?_⟩
    · simp only [endRun, he, Bool.false_eq_true, if_false, runWake]
      rw [countSome_append]
      simp [countSome, h1]
    · simp only [endRun, he, Bool.false_eq_true, if_false, runWake]
      rw [countNone_append, hq0, hsr]
      simp [countNone]
    · simp only [endRun, he, Bool.false_eq_true, if_false, runWake]
      intro _; trivial
    · simp only [endRun, he, Bool.false_eq_true, if_false, runWake]
      exact noneOnlyLast_append s.queue [none] hq0 rfl

theorem inv_shift (s : QueueState T) (hi : Inv s) : Inv (shiftStep s).1 := by
  obtain ⟨h1, h2, h3, h4⟩ := hi
  match hq : s.queue with
  | [] =>
    have : (shiftStep s).1 = s := by
      rw [shiftStep, hq]
      cases s.ended <;> rfl
    rw [this]
    exact ⟨h1, h2, h3, h4⟩
  | some x :: rest =>
    have hs1 : (shiftStep s).1 = popState s (some x) rest := by rw [shiftStep, hq]
    rw [hs1]
    rw [hq] at h1 h2 h4
    simp only [countSome, countNone] at h1 h2
    refine ⟨?_, ?_, ?_, ?_⟩
    · simp only [popState, fireResolvers, Option.isSome_some, if_true]
      omega
    · simp only [popState, fireResolvers, Option.isNone_some, Bool.or_false]
      simpa [countNone] using h2
    · simp only [popState, fireResolvers, Option.isNone_some, Bool.or_false]
      exact h3
    · simp only [popState, fireResolvers]
      simpa [noneOnlyLast] using h4
  | none :: rest =>
    have hs1 : (shiftStep s).1 = popState s none rest := by rw [shiftStep, hq]
    rw [hs1]
    rw [hq] at h1 h2 h4
    have hrest : rest = [] := by
      simp only [noneOnlyLast] at h4
      exact List.isEmpty_iff.mp h4
    have hcond : s.ended = true ∧ s.sentinelRemoved = false := by
      by_contra hc
      rw [if_neg hc] at h2
      simp [countNone] at h2
    subst hrest
    simp only [countSome, countNone] at h1 h2
    refine ⟨?_, ?_, ?_, ?_⟩
    · simp [popState, fireResolvers, countSome]
      omega
    · simp only [popState, fireResolvers, Option.isNone_none, Bool.or_true]
      simp [countNone]
    · simp only [popState, fireResolvers]
      intro _; exact hcond.1
    · rfl

theorem inv_prep (s : QueueState T) (hi : Inv s) : Inv (preparePipe s).1 := by
  obtain ⟨h1, h2, h3, h4⟩ := hi
  cases hp : s.piped with
  | true =>
    have hps : (preparePipe s).1 = s := by simp [preparePipe, hp]
    rw [hps]; exact ⟨h1, h2, h3, h4⟩
  | false =>
    have hps : (preparePipe s).1 = { s with piped := true } := by simp [preparePipe, hp]
    rw [hps]; exact ⟨h1, h2, h3, h4⟩

theorem inv_wait (s : QueueState T) (hi : Inv s) : Inv (waitForShiftRun s) := by
  obtain ⟨h1, h2, h3, h4⟩ := hi
  exact ⟨h1, h2, h3, h4⟩

theorem inv_applyOp (s : QueueState T) (op : Op T) (hi : Inv s) :
    Inv (applyOp s op) := by
  cases op with
  | pushOp vals => exact inv_push s vals hi
  | endOp => exact inv_end s hi
  | shiftOp => exact inv_shift s hi
  | prepOp => exact inv_prep s hi
  | waitOp => exact inv_wait s hi

theorem inv_applyOps (ops : List (Op T)) : ∀ s : QueueState T, Inv s →
    Inv (applyOps s ops) := by
  induction ops with
  | nil => intro s hi; exact hi
  | cons op ops ih => intro s hi; exact ih (applyOp s op) (inv_applyOp s op hi)

theorem inv_reachable (s : QueueState T) (hr : Reachable s) : Inv s := by
  obtain ⟨ops, rfl⟩ := hr
  exact inv_applyOps ops (fresh T) inv_fresh


theorem drainLoop_piped (s : QueueState T) (acc : List T) :
    (drainLoop s acc).1.piped = s.piped :=
  (drainLoop_spec s.queue s acc rfl).2.2.1

theorem filterMap_pending_mark (l : List (Nat × Bool)) :
    (l.map (fun p => (p.1, true))).filterMap
      (fun p => if p.2 then none else some p.1) = [] := by
  induction l <;> simp_all

theorem pendingIds_fireResolvers (s : QueueState T) :
    pendingIds (fireResolvers s) = [] := by
  simp only [pendingIds, fireResolvers]
  exact filterMap_pending_mark s.resolvers

/-- C3 (single-consumer guard): on a queue whose `piped` flag is still false,
starting any full drain — `map`, `mapParallel`, or the async-iteration
protocol — flips `piped` to true; on a queue already piped, each of the three
fails immediately with the already-piped ("queue already consumed") error and
returns the state — buffer included — completely unchanged. -/
theorem c3_single_consumer_guard (s : QueueState T) (spec : T → TaskSpec) (n : Nat) :
    (s.piped = true →
      mapQ s = (s, Except.error QError.alreadyPiped) ∧
      iterQ s = (s, Except.error QError.alreadyPiped) ∧
      mapParallelQ s spec n = (s, Except.error QError.alreadyPiped)) ∧
    (s.piped = false →
      (mapQ s).1.piped = true ∧ (iterQ s).1.piped = true ∧
      (mapParallelQ s spec n).1.piped = true) := by
  constructor
  · intro hp
    have hpp : preparePipe s = (s, some QError.alreadyPiped) := by
      simp [preparePipe, hp]
    refine ⟨?_, ?_, ?_⟩ <;> simp [mapQ, iterQ, mapParallelQ, hpp]
  · intro hp
    have hpp : preparePipe s = ({ s with piped := true }, none) := by
      simp [preparePipe, hp]
    have hd : ({ s with piped := true } : QueueState T).piped = true := rfl
    refine ⟨?_, ?_, ?_⟩ <;>
      simp [mapQ, iterQ, mapParallelQ, hpp, drainLoop_piped]

theorem c3_witness :
    mapQ ((mapQ (fromArray ([1, 2] : List Nat))).1)
      = ((mapQ (fromArray ([1, 2] : List Nat))).1, Except.error QError.alreadyPiped) ∧
    (mapQ (fromArray ([1, 2] : List Nat))).1.piped = true :=
  ⟨((c3_single_consumer_guard ((mapQ (fromArray ([1, 2] : List Nat))).1)
      (fun _ => ⟨0, true⟩) 0).1 (by decide)).1,
   ((c3_single_consumer_guard (fromArray ([1, 2] : List Nat))
      (fun _ => ⟨0, true⟩) 0).2 (by decide)).1⟩


/-- C4 (termination protocol): on every reachable queue state on which `end`
has been called, a further `push` and a further `end` both fail synchronously
with the has-ended error (a second `end` raises rather than being a no-op),
leaving the state unchanged; and no buffer item ever follows the sentinel. -/
theorem c4_termination_protocol (s : QueueState T) (vals : List (Option T))
    (hr : Reachable s) (he : s.ended = true) :
    pushRun s vals = (s, some QError.hasEnded) ∧
    endRun s = (s, some QError.hasEnded) ∧
    noneOnlyLast s.queue = true :=
  ⟨by simp [pushRun, he], by simp [endRun, he], (inv_reachable s hr).2.2.2⟩

theorem c4_witness :
    pushRun (applyOps (fresh Nat) [Op.pushOp [some 1], Op.endOp]) [some 2]
      = (applyOps (fresh Nat) [Op.pushOp [some 1], Op.endOp], some QError.hasEnded) ∧
    endRun (applyOps (fresh Nat) [Op.pushOp [some 1], Op.endOp])
      = (applyOps (fresh Nat) [Op.pushOp [some 1], Op.endOp], some QError.hasEnded) ∧
    noneOnlyLast (applyOps (fresh Nat) [Op.pushOp [some 1], Op.endOp]).queue = true :=
  c4_termination_protocol _ [some 2] ⟨[Op.pushOp [some 1], Op.endOp], rfl⟩ (by decide)

/-- C5 counterexample: push one value, then call `end`. `size()` is the raw
buffer length and so counts the buffered sentinel: it is 2 although
`pushCount − removed = 1 − 0 = 1`, and the `end()` call itself changed
`size()` from 1 to 2 — refuting both the claimed equation and the claim that
`end()` leaves `size()` unchanged (the state is reachable via push;end). -/
theorem c5_counterexample :
    Reachable ((endRun ((pushRun (fresh Nat) [some 1]).1)).1) ∧
    size ((pushRun (fresh Nat) [some 1]).1) = 1 ∧
    size ((endRun ((pushRun (fresh Nat) [some 1]).1)).1) = 2 ∧
    ((endRun ((pushRun (fresh Nat) [some 1]).1)).1).pushCount = 1 ∧
    ((endRun ((pushRun (fresh Nat) [some 1]).1)).1).removedCount = 0 ∧
    ¬ (size ((endRun ((pushRun (fresh Nat) [some 1]).1)).1)
        = ((endRun ((pushRun (fresh Nat) [some 1]).1)).1).pushCount
          - ((endRun ((pushRun (fresh Nat) [some 1]).1)).1).removedCount) :=
  ⟨⟨[Op.pushOp [some 1], Op.endOp], rfl⟩, by decide, by decide, by decide,
    by decide, by decide⟩

/-- C5 amended: in every reachable state, `size()` equals `pushCount` minus
the number of non-sentinel items removed so far, plus one for the sentinel
while it is buffered (i.e. once `end` has been called and the sentinel has
not yet been popped); in particular `end()` increases `size()` by one rather
than leaving it unchanged. -/
theorem c5_size_accounting (s : QueueState T) (hr : Reachable s) :
    s.removedCount ≤ s.pushCount ∧
    size s = s.pushCount - s.removedCount
      + (if s.ended = true ∧ s.sentinelRemoved = false then 1 else 0) := by
  obtain ⟨h1, h2, _, _⟩ := inv_reachable s hr
  have hlen := countSome_add_countNone s.queue
  constructor
  · omega
  · rw [size]
    by_cases hc : s.ended = true ∧ s.sentinelRemoved = false
    · rw [if_pos hc]; rw [if_pos hc] at h2; omega
    · rw [if_neg hc]; rw [if_neg hc] at h2; omega

theorem c5_witness :
    (applyOps (fresh Nat) [Op.pushOp [some 5], Op.endOp, Op.shiftOp]).removedCount
      ≤ (applyOps (fresh Nat) [Op.pushOp [some 5], Op.endOp, Op.shiftOp]).pushCount ∧
    size (applyOps (fresh Nat) [Op.pushOp [some 5], Op.endOp, Op.shiftOp])
      = (applyOps (fresh Nat) [Op.pushOp [some 5], Op.endOp, Op.shiftOp]).pushCount
        - (applyOps (fresh Nat) [Op.pushOp [some 5], Op.endOp, Op.shiftOp]).removedCount
      + (if (applyOps (fresh Nat) [Op.pushOp [some 5], Op.endOp, Op.shiftOp]).ended = true
            ∧ (applyOps (fresh Nat) [Op.pushOp [some 5], Op.endOp, Op.shiftOp]).sentinelRemoved
              = false
         then 1 else 0) :=
  c5_size_accounting _ ⟨[Op.pushOp [some 5], Op.endOp, Op.shiftOp], rfl⟩

/-- C9 (waitForShift firing): whenever take-next-or-suspend pops the front of
a non-empty buffer, it resolves every pending `waitForShift` listener (the
fired set logged is exactly the pending set) and leaves no listener pending,
so each registered listener observes at most one event; this holds for every
front value `v`, the sentinel `none` included. -/
theorem c9_shift_fires_listeners (s : QueueState T) (v : Option T)
    (rest : List (Option T)) (h : s.queue = v :: rest) :
    (shiftStep s).2 = ShiftOut.value v ∧
    (shiftStep s).1.fireLog = s.fireLog ++ [pendingIds s] ∧
    pendingIds (shiftStep s).1 = [] ∧
    (shiftStep s).1.queue = rest := by
  have hs : shiftStep s = (popState s v rest, ShiftOut.value v) := by
    rw [shiftStep, h]
  rw [hs]
  refine ⟨rfl, ?_, ?_, rfl⟩
  · simp [popState, fireResolvers, pendingIds]
  · exact pendingIds_fireResolvers _

theorem c9_witness :
    (shiftStep (waitForShiftRun ((endRun (fresh Nat)).1))).2 = ShiftOut.value none ∧
    (shiftStep (waitForShiftRun ((endRun (fresh Nat)).1))).1.fireLog
      = (waitForShiftRun ((endRun (fresh Nat)).1)).fireLog
        ++ [pendingIds (waitForShiftRun ((endRun (fresh Nat)).1))] ∧
    pendingIds (shiftStep (waitForShiftRun ((endRun (fresh Nat)).1))).1 = [] ∧
    (shiftStep (waitForShiftRun ((endRun (fresh Nat)).1))).1.queue = [] :=
  c9_shift_fires_listeners _ none [] (by decide)

/-- C10 (push failure atomicity): whenever `push(vals...)` throws — because
the queue has ended, or because some argument is the sentinel value
`undefined` — the returned state is exactly the input state: nothing is
appended (not even arguments preceding an invalid one), `pushCount` is not
incremented, and no suspended removal is woken. -/
theorem c10_push_atomicity (s : QueueState T) (vals : List (Option T))
    (h : s.ended = true ∨ vals.any (fun v => v.isNone) = true) :
    (pushRun s vals).1 = s ∧ (pushRun s vals).2.isSome = true := by
  rcases h with h | h
  · simp [pushRun, h]
  · cases he : s.ended with
    | true => simp [pushRun, he]
    | false => simp [pushRun, he, h]

theorem c10_witness :
    ((pushRun ((endRun (fresh Nat)).1) [some 3]).1 = (endRun (fresh Nat)).1 ∧
      (pushRun ((endRun (fresh Nat)).1) [some 3]).2.isSome = true) ∧
    ((pushRun (fresh Nat) [some 1, none]).1 = fresh Nat ∧
      (pushRun (fresh Nat) [some 1, none]).2.isSome = true) :=
  ⟨c10_push_atomicity _ _ (Or.inl (by decide)),
   c10_push_atomicity _ _ (Or.inr (by decide))⟩


theorem raceIdx_lt (ts : List TaskSpec) (h : ts ≠ []) : raceIdx ts < ts.length := by
  induction ts with
  | nil => simp at h
  | cons t ts ih =>
    rw [raceIdx]
    by_cases he : ts.isEmpty
    · simp [he]
    · simp only [he, Bool.false_eq_true, if_false]
      by_cases hle : t.time ≤ minTime ts
      · simp [hle]
      · simp only [hle, if_false]
        have hts : ts ≠ [] := by
          cases ts
          · simp at he
          · simp
        have := ih hts
        simp only [List.length_cons]
        omega

theorem getD_mem_of_lt (ts : List TaskSpec) (i : Nat) (h : i < ts.length) :
    ts.getD i default ∈ ts := by
  induction ts generalizing i with
  | nil => simp at h
  | cons t ts ih =>
    cases i with
    | zero => simp
    | succ j =>
      simp only [List.getD_cons_succ]
      exact List.mem_cons_of_mem _ (ih j (by simpa using h))

theorem mapParallelRun_all_ok (n : Nat) (hn : 0 < n) :
    ∀ (xs proms : List TaskSpec),
    (∀ t ∈ xs, t.ok = true) → (∀ t ∈ proms, t.ok = true) →
    mapParallelRun n xs proms = MPResult.resolved := by
  intro xs
  induction xs with
  | nil =>
    intro proms _ hp
    rw [mapParallelRun.eq_def]
    by_cases hl : proms.length = n
    · simp only [hl, if_pos]
      match proms, hp, hl with
      | [], _, hl => simp at hl; omega
      | p :: ps, hp, _ =>
        have hm : (p :: ps).getD (raceIdx (p :: ps)) default ∈ p :: ps :=
          getD_mem_of_lt _ _ (raceIdx_lt _ (by simp))
        have hok := hp _ hm
        simp only [List.getD_eq_getElem?_getD] at hok
        simp [hok]
    · simp [hl]
  | cons x rest ih =>
    intro proms hx hp
    rw [mapParallelRun.eq_def]
    by_cases hl : proms.length = n
    · simp only [hl, if_pos]
      match proms, hp, hl with
      | [], _, hl => simp at hl; omega
      | p :: ps, hp, _ =>
        have hm : (p :: ps).getD (raceIdx (p :: ps)) default ∈ p :: ps :=
          getD_mem_of_lt _ _ (raceIdx_lt _ (by simp))
        have hok := hp _ hm
        simp only [hok, if_pos]
        apply ih _ (fun t ht => hx t (List.mem_cons_of_mem _ ht))
        intro t ht
        rcases List.mem_append.mp ht with ht | ht
        · exact hp t (((p :: ps).eraseIdx_sublist (raceIdx (p :: ps))).mem ht)
        · rw [List.mem_singleton.mp ht]
          exact hx x (List.mem_cons_self x rest)
    · simp only [hl, if_neg, not_false_iff]
      apply ih _ (fun t ht => hx t (List.mem_cons_of_mem _ ht))
      intro t ht
      rcases List.mem_append.mp ht with ht | ht
      · exact hp t ht
      · rw [List.mem_singleton.mp ht]
        exact hx x (List.mem_cons_self x rest)

/-- C2 counterexample: one pushed item whose visitor promise rejects, with
concurrency 1. The window fills, the race over the single (rejected) task
rejects, the awaited race throws, and the promise returned by `mapParallel`
rejects — it does not resolve successfully, so rejections are NOT absorbed in
the windowing race. -/
theorem c2_counterexample :
    mapParallelRun 1 [{ time := 0, ok := false }] [] = MPResult.rejected := by
  decide

/-- C2 amended: only the final settle-all join absorbs visitor failures — a
task that is still in flight when the source is exhausted is joined with
`Promise.allSettled` and its rejection is swallowed (second conjunct: the
rejecting task never races because the window never fills, and `mapParallel`
resolves). The windowing race, by contrast, PROPAGATES a rejection that
settles first. `mapParallel` resolves whenever no rejection wins a race — in
particular whenever every visitor promise fulfils (first conjunct). -/
theorem c2_failure_handling (n : Nat) (xs : List TaskSpec)
    (hn : 0 < n) (hx : ∀ t ∈ xs, t.ok = true) :
    mapParallelRun n xs [] = MPResult.resolved ∧
    mapParallelRun 2 [{ time := 5, ok := false }] [] = MPResult.resolved :=
  ⟨mapParallelRun_all_ok n hn xs [] hx (by simp), by decide⟩

theorem c2_witness :
    (0 < 2 ∧ ∀ t ∈ ([⟨0, true⟩, ⟨1, true⟩, ⟨2, true⟩] : List TaskSpec), t.ok = true) ∧
    (mapParallelRun 2 [⟨0, true⟩, ⟨1, true⟩, ⟨2, true⟩] [] = MPResult.resolved ∧
     mapParallelRun 2 [{ time := 5, ok := false }] [] = MPResult.resolved) :=
  ⟨⟨by decide, by decide⟩, c2_failure_handling 2 _ (by decide) (by decide)⟩

/-- C6 counterexample: `end()` on a fresh queue leaves the buffer `[sentinel]`;
`shiftUnsafe` then pops the sentinel out of the buffer (the buffer becomes
empty and the sentinel-removed history flag is set) and returns it to the
caller — the sentinel is returned to an external consumer as a removed
value. -/
theorem c6_counterexample :
    ((endRun (fresh Nat)).1).queue = [none] ∧
    (shiftUnsafe ((endRun (fresh Nat)).1)).2 = ShiftOut.value none ∧
    (shiftUnsafe ((endRun (fresh Nat)).1)).1.queue = [] ∧
    (shiftUnsafe ((endRun (fresh Nat)).1)).1.sentinelRemoved = true := by
  refine ⟨rfl, rfl, rfl, rfl⟩

/-- C6 amended: the drain-based consumers (`map`, `collect`, async iteration)
indeed never hand the sentinel to the visitor — the visit sequence is exactly
the values strictly before the first sentinel. `shiftUnsafe`, however, DOES
return the sentinel: exactly when the buffer is empty on an ended queue (no
removal happens), or when the sentinel sits at the buffer front (and then it
is returned as a removed value). -/
theorem c6_sentinel_exposure (s : QueueState T) (hp : s.piped = false) :
    (mapQ s).2 = Except.ok (takeSomes s.queue,
      s.queue.any (fun v => v.isNone) || s.ended) ∧
    ((shiftUnsafe s).2 = ShiftOut.value none ↔
      (s.queue = [] ∧ s.ended = true) ∨ s.queue.head? = some none) := by
  constructor
  · have hpp : preparePipe s = ({ s with piped := true }, none) := by
      simp [preparePipe, hp]
    obtain ⟨h1, h2, _, _⟩ :=
      drainLoop_spec s.queue ({ s with piped := true } : QueueState T) [] rfl
    simp only [mapQ, hpp]
    simp only [List.nil_append] at h1
    have he : ({ s with piped := true } : QueueState T).ended = s.ended := rfl
    rw [he] at h2
    simp [h1, h2]
  · rw [shiftUnsafe]
    cases hq : s.queue with
    | nil =>
      cases he : s.ended with
      | true => simp [shiftStep, hq, he]
      | false => simp [shiftStep, hq, he]
    | cons v rest =>
      have hs : shiftStep s = (popState s v rest, ShiftOut.value v) := by
        rw [shiftStep, hq]
      rw [hs]
      cases v <;> simp

theorem c6_witness :
    ((mapQ ((endRun ((pushRun (fresh Nat) [some 7]).1)).1)).2
      = Except.ok (takeSomes ((endRun ((pushRun (fresh Nat) [some 7]).1)).1).queue,
          ((endRun ((pushRun (fresh Nat) [some 7]).1)).1).queue.any (fun v => v.isNone)
            || ((endRun ((pushRun (fresh Nat) [some 7]).1)).1).ended)) ∧
    ((shiftUnsafe ((endRun ((pushRun (fresh Nat) [some 7]).1)).1)).2 = ShiftOut.value none ↔
      (((endRun ((pushRun (fresh Nat) [some 7]).1)).1).queue = []
          ∧ ((endRun ((pushRun (fresh Nat) [some 7]).1)).1).ended = true) ∨
        ((endRun ((pushRun (fresh Nat) [some 7]).1)).1).queue.head? = some none) :=
  c6_sentinel_exposure _ (by decide)


theorem settleSort_launchTicks_zero (cb : T → CbRes U)
    (hcb : ∀ x, (cb x).time = 0) :
    ∀ (xs : List T) (i : Nat), settleSort (launchTicks cb i xs) = launchTicks cb i xs := by
  intro xs
  induction xs with
  | nil => intro i; rfl
  | cons x rest ih =>
    intro i
    rw [launchTicks, settleSort, ih]
    cases rest with
    | nil => rfl
    | cons y r2 =>
      rw [launchTicks, insertByTime]
      simp [hcb]

theorem launchTicks_zero_bound (cb : T → CbRes U) (hcb : ∀ x, (cb x).time = 0) :
    ∀ (xs : List T) (i : Nat) (p : Nat × Option U), p ∈ launchTicks cb i xs →
      p.1 < i + xs.length := by
  intro xs
  induction xs with
  | nil => intro i p hp; simp [launchTicks] at hp
  | cons x rest ih =>
    intro i p hp
    rw [launchTicks] at hp
    rcases List.mem_cons.mp hp with h | h
    · subst h; simp [hcb]
    · have := ih (i + 1) p h
      simp only [List.length_cons]
      omega

theorem filterMap_launchTicks (cb : T → CbRes U) :
    ∀ (xs : List T) (i : Nat),
      (launchTicks cb i xs).filterMap (fun p => p.2)
        = pipeContents (fun x => (cb x).out) xs := by
  intro xs
  induction xs with
  | nil => intro i; rfl
  | cons x rest ih =>
    intro i
    rw [launchTicks]
    cases hcx : (cb x).out <;> simp [pipeContents, List.filterMap_cons, hcx, ih]

theorem firedPushes_zero (cb : T → CbRes U) (xs : List T)
    (hcb : ∀ x, (cb x).time = 0) :
    firedPushes (launchTicks cb 0 xs) xs.length
      = pipeContents (fun x => (cb x).out) xs := by
  rw [firedPushes, settleSort_launchTicks_zero cb hcb xs 0]
  have hb : ∀ p ∈ launchTicks cb 0 xs, decide (p.1 < xs.length) = true := by
    intro p hp
    simpa using launchTicks_zero_bound cb hcb xs 0 p hp
  rw [List.filter_eq_self.mpr hb]
  exact filterMap_launchTicks cb xs 0

theorem pipeContents_total (g : T → U ⊕ V) (cgout : T → Option (U ⊕ V))
    (hg : ∀ x, cgout x = some (g x)) : ∀ xs : List T, pipeContents cgout xs = xs.map g := by
  intro xs
  induction xs with
  | nil => rfl
  | cons x rest ih => simp [pipeContents, hg x, ih]

theorem lanes_of_map (g : T → U ⊕ V) :
    ∀ xs : List T,
      ((xs.map g).filterMap
          (fun r => match r with | Sum.inl u => some u | Sum.inr _ => none)
        = (splitContents g xs).1) ∧
      ((xs.map g).filterMap
          (fun r => match r with | Sum.inl _ => none | Sum.inr v => some v)
        = (splitContents g xs).2) := by
  intro xs
  induction xs with
  | nil => exact ⟨rfl, rfl⟩
  | cons x rest ih =>
    cases hgx : g x <;>
      simp [splitContents, List.map_cons, List.filterMap_cons, hgx, ih.1, ih.2]

/-- C8 counterexample: two items under `n === Infinity`, where the first
callback settles 5 ticks after its launch and the second immediately. The
drain ends the derived queue at tick 2; the second callback's push (settle
tick 1) lands, the first callback settles at tick 5 into the already-ended
queue and its value is lost: the derived queue carries [3], while `pipe`
would produce [2, 3] — neither the same values nor source order. -/
theorem c8_counterexample :
    upipeContents (fun x : Nat => ⟨if x = 1 then 5 else 0, some (x + 1)⟩)
        Conc.infin [1, 2] = some [3] ∧
    pipeContents
        (fun x => ((fun x : Nat => (⟨if x = 1 then 5 else 0, some (x + 1)⟩ : CbRes Nat)) x).out)
        [1, 2] = [2, 3] ∧
    ¬ (upipeContents (fun x : Nat => ⟨if x = 1 then 5 else 0, some (x + 1)⟩)
          Conc.infin [1, 2]
        = some (pipeContents
            (fun x => ((fun x : Nat =>
              (⟨if x = 1 then 5 else 0, some (x + 1)⟩ : CbRes Nat)) x).out)
            [1, 2])) := by
  decide

/-- C8 amended: with requested concurrency Infinity, `upipe` and `usplit`
do dispatch to the plain sequential `map` drain instead of the windowed
scheduler — but `map` fires the async wrapper without awaiting it, so pushes
into the derived queue(s) land in callback-settle order and a callback that
settles only after the source drain ends the derived queue loses its value.
The derived queue(s) carry exactly what `pipe`/`split` would produce, in
source order, in the immediate-settle case: when every callback resolves its
promise on the spot (settle delay 0), for `usplit` with the classifier its
callback computes. -/
theorem c8_infinity_dispatch (cb : T → CbRes U) (cg : T → CbRes (U ⊕ V))
    (g : T → U ⊕ V) (xs : List T)
    (hcb : ∀ x, (cb x).time = 0) (hcg : ∀ x, (cg x).time = 0)
    (hg : ∀ x, (cg x).out = some (g x)) :
    upipeContents cb Conc.infin xs = some (pipeContents (fun x => (cb x).out) xs) ∧
    usplitContents cg Conc.infin xs = some (splitContents g xs) := by
  constructor
  · simp only [upipeContents, Option.some_inj]
    exact firedPushes_zero cb xs hcb
  · simp only [usplitContents, Option.some_inj]
    have hl : firedPushes (launchTicks cg 0 xs) xs.length = xs.map g := by
      rw [firedPushes_zero cg xs hcg, pipeContents_total g (fun x => (cg x).out) hg xs]
    rw [hl, (lanes_of_map g xs).1, (lanes_of_map g xs).2]

theorem c8_witness :
    ((∀ x : Nat, ((fun x : Nat => (⟨0, some (x + 1)⟩ : CbRes Nat)) x).time = 0) ∧
     (∀ x : Nat, ((fun x : Nat => (⟨0, some (Sum.inl x)⟩ : CbRes (Nat ⊕ Nat))) x).time = 0) ∧
     (∀ x : Nat, ((fun x : Nat => (⟨0, some (Sum.inl x)⟩ : CbRes (Nat ⊕ Nat))) x).out
        = some ((fun x : Nat => (Sum.inl x : Nat ⊕ Nat)) x))) ∧
    (upipeContents (fun x : Nat => (⟨0, some (x + 1)⟩ : CbRes Nat)) Conc.infin [1, 2]
        = some (pipeContents
            (fun x => ((fun x : Nat => (⟨0, some (x + 1)⟩ : CbRes Nat)) x).out) [1, 2]) ∧
     usplitContents (fun x : Nat => (⟨0, some (Sum.inl x)⟩ : CbRes (Nat ⊕ Nat)))
         Conc.infin [1, 2]
        = some (splitContents (fun x : Nat => (Sum.inl x : Nat ⊕ Nat)) [1, 2])) :=
  ⟨⟨fun _ => rfl, fun _ => rfl, fun _ => rfl⟩,
   c8_infinity_dispatch (fun x : Nat => (⟨0, some (x + 1)⟩ : CbRes Nat))
     (fun x : Nat => (⟨0, some (Sum.inl x)⟩ : CbRes (Nat ⊕ Nat)))
     (fun x : Nat => (Sum.inl x : Nat ⊕ Nat)) [1, 2]
     (fun _ => rfl) (fun _ => rfl) (fun _ => rfl)⟩

end SuperQueue
